import Mathlib

/-!
Verification of the SOS filing pipeline (extract / enrich / classify).

This file shallowly embeds the pure core of `scripts/enrichment.py` and
`scripts/extract_and_rename.py`:

* character-level models of the Python string primitives used by the code
  (ASCII `str.lower`, `str.strip`, the regex substitution `[\s,\.]+ -> " "`,
  word-boundary matching for the residential-clue regex);
* `normalize_addr`, `_standardize_columns`, the join-key resolution,
  the left merge, the flag computations and the tier classification of
  `enrichment.py`;
* `safe_target_path` of `extract_and_rename.py` (directory state modelled
  as the list of existing file names).

Cells of a loaded dataframe are modelled as `Option String` (`none` = NaN);
all values are read with `dtype=str` in the source, so non-missing cells are
strings.  Unicode-only behaviours (non-ASCII case folding, non-ASCII
whitespace) are outside the model: the embedding fixes the ASCII semantics,
which is what the data in question exercises.
-/

namespace SOS

/-! ### Character-level models of the Python primitives -/

/-- Python whitespace (`str.strip`, regex `\s`), ASCII fragment. -/
def pyWS (c : Char) : Bool :=
  c = ' ' || c = '\t' || c = '\n' || c = '\x0b' || c = '\x0c' || c = '\r'

/-- A character collapsed by `re.sub(r"[\s,\.]+", " ", ...)` in `normalize_addr`. -/
def isSep (c : Char) : Bool := pyWS c || c = ',' || c = '.'

/-- ASCII `str.lower` on a single character. -/
def pyLower (c : Char) : Char :=
  if 65 ≤ c.toNat ∧ c.toNat ≤ 90 then Char.ofNat (c.toNat + 32) else c

/-- `str.lower`, mapped over the characters. -/
def lowerL (l : List Char) : List Char := l.map pyLower

/-- `str.strip()`: drop leading and trailing whitespace. -/
def stripL (l : List Char) : List Char :=
  ((l.dropWhile pyWS).reverse.dropWhile pyWS).reverse

/-- Worker for `re.sub(r"[\s,\.]+", " ", ...)`: the boolean records whether the
previous character was part of a separator run already replaced by `' '`. -/
def collapseAux : Bool → List Char → List Char
  | _, [] => []
  | prevSep, c :: cs =>
    if isSep c then
      (if prevSep then collapseAux true cs else ' ' :: collapseAux true cs)
    else c :: collapseAux false cs

/-- `re.sub(r"[\s,\.]+", " ", ...)`: each maximal run of whitespace, commas and
periods becomes a single space. -/
def collapseL (l : List Char) : List Char := collapseAux false l

/-- `normalize_addr` of `enrichment.py` on character lists:
`re.sub(r"[\s,\.]+", " ", addr.strip().lower())`, with `""` for empty input. -/
def normalizeL (l : List Char) : List Char :=
  if l = [] then [] else collapseL (lowerL (stripL l))

/-- `normalize_addr` of `enrichment.py` (the `isinstance(addr, str)` guard is
the typing of the argument; `not addr` is the emptiness test). -/
def normalize_addr (s : String) : String := ⟨normalizeL s.data⟩

/-! ### Tier classification (`classify` inside `_apply_flags`) -/

/-- The three enrichment flags carried by a joined row. -/
structure RowFlags where
  agent_differs_from_business_address : Bool
  likely_residential_address : Bool
  has_personal_email : Bool

/-- `classify` of `enrichment.py`: `flags = (agent_differs, residential)`;
`all(flags)` gives A, `any(flags)` gives B, otherwise C.  The email flag is
not read. -/
def classify (row : RowFlags) : String :=
  if row.agent_differs_from_business_address && row.likely_residential_address then "A"
  else if row.agent_differs_from_business_address || row.likely_residential_address then "B"
  else "C"

/-! ### Decimal rendering (Python `f"{...}_{n}"` / `str(int)`) -/

/-- The decimal digit character for `n % 10`, by code point (`'0'` is 48). -/
def digitCh (n : Nat) : Char := Char.ofNat (48 + n % 10)

/-- Numeric value of a decimal digit character. -/
def digitVal (c : Char) : Nat := c.toNat - 48

/-- Worker for decimal rendering; the fuel (any bound above the digit count)
only makes the recursion structural. -/
def decReprAux : Nat → Nat → List Char
  | 0, _ => []
  | fuel + 1, n =>
    if n < 10 then [digitCh n] else decReprAux fuel (n / 10) ++ [digitCh (n % 10)]

/-- Decimal rendering of a natural number, as Python's `str(int)` writes it. -/
def decRepr (n : Nat) : List Char := decReprAux (n + 1) n

/-- Reading a decimal digit list back (used only to prove `decRepr` injective). -/
def decVal (l : List Char) : Nat := l.foldl (fun a c => a * 10 + digitVal c) 0

/-! ### Column standardization (`_standardize_columns`) -/

/-- The two `str.replace` calls of `_standardize_columns`: space and hyphen
both become underscores (single-character replacements commute to one map). -/
def uscore (c : Char) : Char := if c = ' ' || c = '-' then '_' else c

/-- `col.strip().lower().replace(" ", "_").replace("-", "_")`. -/
def cleanName (s : String) : String := ⟨(lowerL (stripL s.data)).map uscore⟩

/-- Lookup in the `seen` dictionary (keys are cleaned names). -/
def lookupSeen (k : String) : List (String × Nat) → Option Nat
  | [] => none
  | (k', n) :: rest => if k' = k then some n else lookupSeen k rest

/-- `seen[clean] += 1`. -/
def bumpSeen (k : String) : List (String × Nat) → List (String × Nat)
  | [] => []
  | (k', n) :: rest => if k' = k then (k', n + 1) :: rest else (k', n) :: bumpSeen k rest

/-- `f"{clean}_{seen[clean]}"`. -/
def suffixName (k : String) (i : Nat) : String := ⟨k.data ++ '_' :: decRepr i⟩

/-- The renaming loop of `_standardize_columns`, with the `seen` dictionary as
an association list on cleaned names. -/
def stdColsAux : List String → List (String × Nat) → List String
  | [], _ => []
  | col :: cols, seen =>
    match lookupSeen (cleanName col) seen with
    | some n => suffixName (cleanName col) (n + 1) :: stdColsAux cols (bumpSeen (cleanName col) seen)
    | none => cleanName col :: stdColsAux cols ((cleanName col, 0) :: seen)

/-- The new column names produced by `_standardize_columns`. -/
def standardizeColumns (cols : List String) : List String := stdColsAux cols []

/-- The names the `seen` state can account for: for each entry `(k, n)`,
the base name `k` and the suffixed names `k_1 … k_n`.  (Verification
invariant for `stdColsAux`, not part of the source.) -/
def Fam (seen : List (String × Nat)) (y : String) : Prop :=
  ∃ p ∈ seen, y = p.1 ∨ ∃ i, 1 ≤ i ∧ i ≤ p.2 ∧ y = suffixName p.1 i

/-- Cell cleanup of `_standardize_columns`: `astype(str)` renders a missing
cell (NaN) as the literal string `"nan"`, then `.str.strip()` trims it.  All
columns are object-typed (`dtype=str` on load), so this applies to every cell. -/
def stdCell (v : Option String) : String :=
  ⟨stripL (match v with | some s => s.data | none => "nan".data)⟩

/-! ### Substring / word-boundary machinery for the flag regexes -/

/-- Python `pat in s` on character lists. -/
def hasSub (pat l : List Char) : Bool :=
  (List.range (l.length + 1)).any (fun i => (l.drop i).take pat.length == pat)

/-- Python `pat in s` (substring test) on strings. -/
def containsSub (s pat : String) : Bool := hasSub pat.data s.data

/-- Python `s.startswith(pat)`. -/
def strStartsWith (s pat : String) : Bool := s.data.take pat.data.length == pat.data

/-- Python `s.endswith(pat)`. -/
def strEndsWith (s pat : String) : Bool := s.data.reverse.take pat.data.length == pat.data.reverse

/-- A regex `\w` word character (ASCII fragment). -/
def wordChar (c : Char) : Bool :=
  ('a' ≤ c && c ≤ 'z') || ('A' ≤ c && c ≤ 'Z') || ('0' ≤ c && c ≤ '9') || c = '_'

/-- Whether the character at index `i` exists and is a word character. -/
def wordAt (l : List Char) (i : Nat) : Bool :=
  match l.get? i with | some c => wordChar c | none => false

/-- A regex `\b` word boundary at gap `i` (before `l[i]`): word-ness changes
between the left neighbour and the right neighbour (edges are non-word). -/
def boundaryAt (l : List Char) (i : Nat) : Bool :=
  (if i = 0 then false else wordAt l (i - 1)) != wordAt l i

/-- The alternatives of the residential regex
`\b(apt|apartment|unit|suite|#|po box|p\.o\. box)\b`, lower-cased. -/
def residentialTokens : List (List Char) :=
  ["apt".data, "apartment".data, "unit".data, "suite".data, "#".data,
   "po box".data, "p.o. box".data]

/-- One alternative `t` matches at position `i` under `re.IGNORECASE`, with the
surrounding `\b` boundaries of the pattern. -/
def tokenMatchAt (l : List Char) (i : Nat) (t : List Char) : Bool :=
  lowerL ((l.drop i).take t.length) == t && boundaryAt l i && boundaryAt l (i + t.length)

/-- `residential_pattern.search(s)` as an existence test: some alternative
matches at some position. -/
def residentialSearch (s : String) : Bool :=
  (List.range (s.data.length + 1)).any (fun i =>
    residentialTokens.any (fun t => tokenMatchAt s.data i t))

/-! ### Email heuristic (`is_personal` inside `_apply_flags`) -/

/-- `email.split("@")[-1]`: the text after the last `'@'` (the whole string
when no `'@'` occurs, but `is_personal` tests `"@" in email` first). -/
def afterLastAt (l : List Char) : List Char :=
  (l.reverse.takeWhile (fun c => !(c == '@'))).reverse

/-- The consumer e-mail domains of `enrichment.py`. -/
def consumerDomains : List String :=
  ["gmail.com", "yahoo.com", "hotmail.com", "outlook.com", "aol.com"]

/-- `is_personal` of `_apply_flags`: the value contains `'@'` and the
lower-cased text after the last `'@'` ends with a consumer domain. -/
def is_personal (e : String) : Bool :=
  if hasSub ['@'] e.data then
    consumerDomains.any (fun d => strEndsWith ⟨lowerL (afterLastAt e.data)⟩ d)
  else false

/-! ### The dataframe model -/

/-- A pandas dataframe: named columns and positional rows; a cell is
`none` for NaN.  (`read_csv` with `dtype=str` yields string cells.) -/
structure DF where
  cols : List String
  rows : List (List (Option String))

/-- `df.empty`: true when either axis has length zero. -/
def dfEmpty (df : DF) : Bool := df.rows.isEmpty || df.cols.isEmpty

/-- Index of a column name (first occurrence), as pandas column lookup. -/
def idxOf (c : String) : List String → Option Nat
  | [] => none
  | c' :: rest => if c' = c then some 0 else (idxOf c rest).map (· + 1)

/-- `row[c]`: the cell of `row` under column `c` (NaN when the column is
absent — the source only reads existing columns). -/
def getCell (cols : List String) (row : List (Option String)) (c : String) : Option String :=
  match idxOf c cols with
  | some i => (row.get? i).getD none
  | none => none

/-- `_standardize_columns` on a dataframe: rename the columns and strip every
cell (via `astype(str)`, which renders NaN as `"nan"`). -/
def standardizeDF (df : DF) : DF :=
  { cols := standardizeColumns df.cols,
    rows := df.rows.map (fun r => r.map (fun v => some (stdCell v))) }

/-- `agents_df.add_prefix("agent_")`. -/
def addAgentTag (df : DF) : DF :=
  { cols := df.cols.map (fun c => "agent_" ++ c), rows := df.rows }

/-! ### Join-key resolution and the left merge (`enrich_and_export`) -/

/-- The ordered candidate key pairs of `enrich_and_export`. -/
def possibleKeys : List (String × String) :=
  [("entity_number", "agent_entity_number"),
   ("file_number", "agent_file_number"),
   ("entity_id", "agent_entity_id")]

/-- Join-key selection: first candidate pair whose columns both exist;
otherwise the first column of each dataframe, with `true` marking the
logged fallback warning. -/
def resolveJoinKey (fcols acols : List String) : (String × String) × Bool :=
  match possibleKeys.find? (fun p => fcols.contains p.1 && acols.contains p.2) with
  | some p => (p, false)
  | none => ((fcols.headD "", acols.headD ""), true)

/-- Key equality for the merge: a left row with a NaN key matches nothing
(pandas does not join NaN to NaN). -/
def keyMatches (fcols : List String) (fr : List (Option String)) (fkey : String)
    (acols : List String) (ar : List (Option String)) (akey : String) : Bool :=
  match getCell fcols fr fkey with
  | some v => getCell acols ar akey == some v
  | none => false

/-- The all-NaN agent side attached to an unmatched left row. -/
def nullRow (cols : List String) : List (Option String) := cols.map (fun _ => none)

/-- The joined rows contributed by one left row: one row per matching agent
row, or a single row with NaN agent fields when nothing matches. -/
def expandRow (f a : DF) (fkey akey : String) (fr : List (Option String)) :
    List (List (Option String)) :=
  let ms := a.rows.filter (fun ar => keyMatches f.cols fr fkey a.cols ar akey)
  if ms.isEmpty then [fr ++ nullRow a.cols] else ms.map (fun ar => fr ++ ar)

/-- `filings_df.merge(agents_df, left_on=f_key, right_on=a_key, how="left")`.
The agent columns are already `agent_`-tagged; the model assumes the two
schemas are disjoint (otherwise pandas would rename with the `_agent` suffix). -/
def mergeLeft (f a : DF) (fkey akey : String) : DF :=
  { cols := f.cols ++ a.cols, rows := f.rows.flatMap (expandRow f a fkey akey) }

/-! ### Row-level flags (`_apply_flags`) -/

/-- `" ".join` over a list of strings. -/
def joinSp : List String → String
  | [] => ""
  | [x] => x
  | x :: y :: rest => x ++ " " ++ joinSp (y :: rest)

/-- Columns whose name contains `"address"` and does not start with `"agent_"`. -/
def businessAddrCols (cols : List String) : List String :=
  cols.filter (fun c => containsSub c "address" && !(strStartsWith c "agent_"))

/-- Columns whose name starts with `"agent_"` and contains `"address"`. -/
def agentAddrCols (cols : List String) : List String :=
  cols.filter (fun c => strStartsWith c "agent_" && containsSub c "address")

/-- `df[business_addr_cols].fillna("").agg(" ".join, axis=1)` for one row. -/
def business_full_address (cols : List String) (row : List (Option String)) : String :=
  joinSp ((businessAddrCols cols).map (fun c => (getCell cols row c).getD ""))

/-- `df[agent_addr_cols].fillna("").agg(" ".join, axis=1)` for one row. -/
def agent_full_address (cols : List String) (row : List (Option String)) : String :=
  joinSp ((agentAddrCols cols).map (fun c => (getCell cols row c).getD ""))

/-- `agent_differs_from_business_address` for one row. -/
def agentDiffers (cols : List String) (row : List (Option String)) : Bool :=
  !(normalize_addr (agent_full_address cols row) == normalize_addr (business_full_address cols row))

/-- `likely_residential_address` for one row: the raw (non-normalized) full
addresses are searched. -/
def likelyResidential (cols : List String) (row : List (Option String)) : Bool :=
  residentialSearch (business_full_address cols row) ||
  residentialSearch (agent_full_address cols row)

/-- Columns whose name contains `"email"`. -/
def emailCols (cols : List String) : List String :=
  cols.filter (fun c => containsSub c "email")

/-- `has_personal_email` for one row: `False` when no email-like column
exists, otherwise `any(is_personal(val) ...)` over the `fillna("")` values. -/
def hasPersonalEmail (cols : List String) (row : List (Option String)) : Bool :=
  if (emailCols cols).isEmpty then false
  else (emailCols cols).any (fun c => is_personal ((getCell cols row c).getD ""))

/-- The three flags of one joined row. -/
def rowFlags (cols : List String) (row : List (Option String)) : RowFlags :=
  ⟨agentDiffers cols row, likelyResidential cols row, hasPersonalEmail cols row⟩

/-- `lead_tier` of one joined row. -/
def leadTier (cols : List String) (row : List (Option String)) : String :=
  classify (rowFlags cols row)

/-! ### Enrichment driver and exporter (`enrich_and_export`) -/

/-- The derived columns appended by `_apply_flags`. -/
def newCols : List String :=
  ["business_full_address", "agent_full_address",
   "agent_differs_from_business_address", "likely_residential_address",
   "has_personal_email", "lead_tier"]

/-- How pandas renders a boolean cell. -/
def boolStr (b : Bool) : String := if b then "True" else "False"

/-- One enriched row: the joined row followed by the derived fields. -/
def flagRow (cols : List String) (row : List (Option String)) : List (Option String) :=
  row ++ [some (business_full_address cols row), some (agent_full_address cols row),
          some (boolStr (agentDiffers cols row)), some (boolStr (likelyResidential cols row)),
          some (boolStr (hasPersonalEmail cols row)), some (leadTier cols row)]

/-- `_apply_flags` on the joined dataframe. -/
def applyFlagsDF (df : DF) : DF :=
  { cols := df.cols ++ newCols, rows := df.rows.map (flagRow df.cols) }

/-- One tier's output file: name `{tier}_leads_{date}.csv` and the enriched
rows whose `lead_tier` equals the tier. -/
def tierFile (joined : DF) (dateStr t : String) : String × DF :=
  (t ++ "_leads_" ++ dateStr ++ ".csv",
   ⟨joined.cols ++ newCols,
    (joined.rows.filter (fun r => leadTier joined.cols r == t)).map (flagRow joined.cols)⟩)

/-- The pure core of `enrich_and_export`, from the two loaded dataframes to
the set of written files: `none` is the early return when either input is
empty; otherwise the agents get the `agent_` tag, the join key is resolved
(fallback included), the left merge and the flags are computed, and one file
per non-empty tier is produced. -/
def enrich_and_export (filings agents : DF) (dateStr : String) :
    Option (List (String × DF)) :=
  if dfEmpty filings || dfEmpty agents then none
  else
    some ((["A", "B", "C"].map (fun t =>
      tierFile (mergeLeft filings (addAgentTag agents)
        (resolveJoinKey filings.cols (addAgentTag agents).cols).1.1
        (resolveJoinKey filings.cols (addAgentTag agents).cols).1.2) dateStr t)).filter
      (fun p => !p.2.rows.isEmpty))

/-! ### `safe_target_path` (`extract_and_rename.py`) -/

/-- Python `base_name.split(".")` on character lists (keeps empty pieces). -/
def splitDot : List Char → List (List Char)
  | [] => [[]]
  | c :: cs =>
    if c = '.' then [] :: splitDot cs
    else match splitDot cs with
      | [] => [[c]]
      | p :: rest => (c :: p) :: rest

/-- Python `".".join(parts)` on character lists. -/
def joinDot : List (List Char) → List Char
  | [] => []
  | [p] => p
  | p :: q :: rest => p ++ '.' :: joinDot (q :: rest)

/-- The `i`-th collision candidate: `name_parts = base_name.split(".")`;
`name_parts[0] += f"_{i}"`; `".".join(name_parts)`.  (The split is recomputed
from the unchanged `base_name` on every loop iteration, so the suffix
increments rather than accumulates.) -/
def candidateL (base : List Char) (i : Nat) : List Char :=
  match splitDot base with
  | [] => base
  | p :: rest => joinDot ((p ++ '_' :: decRepr i) :: rest)

/-- `candidateL` on strings. -/
def candidate (base : String) (i : Nat) : String := ⟨candidateL base.data i⟩

/-- The `while target.exists()` loop; the destination directory is modelled by
the list of file names it contains.  The fuel argument only bounds the search:
`existing.length + 1` candidates always contain a fresh one. -/
def stpGo (existing : List String) (base : String) : Nat → Nat → String
  | i, 0 => candidate base i
  | i, fuel + 1 =>
    if candidate base i ∈ existing then stpGo existing base (i + 1) fuel
    else candidate base i

/-- `safe_target_path`: the base name itself when free, otherwise the first
suffixed candidate (from `_1` upwards) not present in the directory. -/
def safe_target_path (existing : List String) (base : String) : String :=
  if base ∈ existing then stpGo existing base 1 (existing.length + 1) else base

/-! ### Helper lemmas: characters -/

theorem char_toNat_inj {c d : Char} (h : c.toNat = d.toNat) : c = d := by
  have h2 := congrArg Char.ofNat h
  rwa [Char.ofNat_toNat, Char.ofNat_toNat] at h2

theorem toNat_ofNat_valid {n : Nat} (h : n < 55296) : (Char.ofNat n).toNat = n := by
  unfold Char.ofNat
  rw [dif_pos (Or.inl h)]
  rfl

theorem pyLower_eq_self {c : Char} (h : ¬(65 ≤ c.toNat ∧ c.toNat ≤ 90)) :
    pyLower c = c := if_neg h

theorem pyLower_toNat_of_upper {c : Char} (h1 : 65 ≤ c.toNat) (h2 : c.toNat ≤ 90) :
    (pyLower c).toNat = c.toNat + 32 := by
  unfold pyLower
  rw [if_pos ⟨h1, h2⟩, toNat_ofNat_valid (by omega)]

theorem char_eq_iff {c d : Char} : c = d ↔ c.toNat = d.toNat :=
  ⟨congrArg Char.toNat, char_toNat_inj⟩

theorem pyLower_idem (c : Char) : pyLower (pyLower c) = pyLower c := by
  by_cases h : 65 ≤ c.toNat ∧ c.toNat ≤ 90
  · have ht := pyLower_toNat_of_upper h.1 h.2
    exact pyLower_eq_self (by omega)
  · simp only [pyLower_eq_self h]

theorem isSep_iff {c : Char} : isSep c = true ↔
    (c.toNat = 32 ∨ c.toNat = 9 ∨ c.toNat = 10 ∨ c.toNat = 11 ∨ c.toNat = 12 ∨
     c.toNat = 13 ∨ c.toNat = 44 ∨ c.toNat = 46) := by
  have e1 : (' ' : Char).toNat = 32 := by decide
  have e2 : ('\t' : Char).toNat = 9 := by decide
  have e3 : ('\n' : Char).toNat = 10 := by decide
  have e4 : ('\x0b' : Char).toNat = 11 := by decide
  have e5 : ('\x0c' : Char).toNat = 12 := by decide
  have e6 : ('\r' : Char).toNat = 13 := by decide
  have e7 : (',' : Char).toNat = 44 := by decide
  have e8 : ('.' : Char).toNat = 46 := by decide
  unfold isSep pyWS
  simp only [Bool.or_eq_true, decide_eq_true_eq, char_eq_iff, e1, e2, e3, e4, e5, e6, e7, e8]
  tauto

theorem pyWS_iff {c : Char} : pyWS c = true ↔
    (c.toNat = 32 ∨ c.toNat = 9 ∨ c.toNat = 10 ∨ c.toNat = 11 ∨ c.toNat = 12 ∨
     c.toNat = 13) := by
  have e1 : (' ' : Char).toNat = 32 := by decide
  have e2 : ('\t' : Char).toNat = 9 := by decide
  have e3 : ('\n' : Char).toNat = 10 := by decide
  have e4 : ('\x0b' : Char).toNat = 11 := by decide
  have e5 : ('\x0c' : Char).toNat = 12 := by decide
  have e6 : ('\r' : Char).toNat = 13 := by decide
  unfold pyWS
  simp only [Bool.or_eq_true, decide_eq_true_eq, char_eq_iff, e1, e2, e3, e4, e5, e6]
  tauto

theorem isSep_of_pyWS {c : Char} (h : pyWS c = true) : isSep c = true := by
  unfold isSep
  rw [h]
  rfl

theorem isSep_pyLower (c : Char) : isSep (pyLower c) = isSep c := by
  by_cases h : 65 ≤ c.toNat ∧ c.toNat ≤ 90
  · have ht := pyLower_toNat_of_upper h.1 h.2
    have hl : isSep (pyLower c) = false := by
      cases hx : isSep (pyLower c)
      · rfl
      · exfalso
        have := isSep_iff.mp hx
        omega
    have hr : isSep c = false := by
      cases hx : isSep c
      · rfl
      · exfalso
        have := isSep_iff.mp hx
        omega
    rw [hl, hr]
  · rw [pyLower_eq_self h]

/-! ### Helper lemmas: decimal rendering -/

theorem digitCh_toNat (n : Nat) : (digitCh n).toNat = 48 + n % 10 := by
  unfold digitCh
  exact toNat_ofNat_valid (by omega)

theorem digitVal_digitCh (n : Nat) : digitVal (digitCh n) = n % 10 := by
  unfold digitVal
  rw [digitCh_toNat]
  omega

theorem decReprAux_ne_nil {fuel n : Nat} (h : n < fuel) : decReprAux fuel n ≠ [] := by
  cases fuel with
  | zero => omega
  | succ f =>
    unfold decReprAux
    split
    · simp
    · simp

theorem decRepr_ne_nil (n : Nat) : decRepr n ≠ [] := decReprAux_ne_nil (by omega)

theorem decVal_decReprAux : ∀ (fuel n : Nat), n < fuel → decVal (decReprAux fuel n) = n := by
  intro fuel
  induction fuel with
  | zero => intro n h; omega
  | succ f ih =>
    intro n h
    unfold decReprAux
    split
    · simp only [decVal, List.foldl]
      rw [digitVal_digitCh]
      omega
    · rename_i hn
      have hlt : n / 10 < f := by
        have := Nat.div_lt_self (n := n) (by omega) (show 1 < 10 by omega)
        omega
      have hv := ih (n / 10) hlt
      simp only [decVal, List.foldl_append, List.foldl]
      simp only [decVal] at hv
      rw [hv, digitVal_digitCh]
      omega

theorem decVal_decRepr (n : Nat) : decVal (decRepr n) = n :=
  decVal_decReprAux (n + 1) n (by omega)

theorem decRepr_inj {m n : Nat} (h : decRepr m = decRepr n) : m = n := by
  have := congrArg decVal h
  rwa [decVal_decRepr, decVal_decRepr] at this

theorem decReprAux_toNat_mem : ∀ {fuel n : Nat} {c : Char}, c ∈ decReprAux fuel n →
    48 ≤ c.toNat ∧ c.toNat ≤ 57 := by
  intro fuel
  induction fuel with
  | zero => intro n c h; exact absurd h (by simp [decReprAux])
  | succ f ih =>
    intro n c h
    unfold decReprAux at h
    split at h
    · simp only [List.mem_singleton] at h
      subst h
      rw [digitCh_toNat]
      omega
    · rcases List.mem_append.mp h with h2 | h2
      · exact ih h2
      · simp only [List.mem_singleton] at h2
        subst h2
        rw [digitCh_toNat]
        omega

theorem decRepr_toNat_mem {n : Nat} {c : Char} (h : c ∈ decRepr n) :
    48 ≤ c.toNat ∧ c.toNat ≤ 57 := decReprAux_toNat_mem h

theorem decRepr_ne_underscore {n : Nat} {c : Char} (h : c ∈ decRepr n) : c ≠ '_' := by
  intro he
  subst he
  have := decRepr_toNat_mem h
  have hu : ('_' : Char).toNat = 95 := by decide
  omega

/-! ### Helper lemmas: `normalize_addr` -/

theorem collapseAux_cons_sep {c : Char} (cs : List Char) (h : isSep c = true) :
    (collapseAux false (c :: cs) = ' ' :: collapseAux true cs) ∧
    (collapseAux true (c :: cs) = collapseAux true cs) := by
  constructor <;> simp [collapseAux, h]

theorem collapseAux_cons_nonsep {c : Char} (b : Bool) (cs : List Char)
    (h : isSep c = false) : collapseAux b (c :: cs) = c :: collapseAux false cs := by
  simp [collapseAux, h]

theorem mem_collapseAux {c : Char} : ∀ {b : Bool} {l : List Char},
    c ∈ collapseAux b l → c = ' ' ∨ c ∈ l := by
  intro b l
  induction l generalizing b with
  | nil => intro h; exact absurd h (by simp [collapseAux])
  | cons d ds ih =>
    intro h
    by_cases hd : isSep d = true
    · cases b with
      | true =>
        rw [(collapseAux_cons_sep ds hd).2] at h
        rcases ih h with h2 | h2
        · exact Or.inl h2
        · exact Or.inr (List.mem_cons_of_mem d h2)
      | false =>
        rw [(collapseAux_cons_sep ds hd).1] at h
        rcases List.mem_cons.mp h with h2 | h2
        · exact Or.inl h2
        · rcases ih h2 with h3 | h3
          · exact Or.inl h3
          · exact Or.inr (List.mem_cons_of_mem d h3)
    · rw [collapseAux_cons_nonsep b ds (by revert hd; cases isSep d <;> simp)] at h
      rcases List.mem_cons.mp h with h2 | h2
      · exact Or.inr (h2 ▸ List.mem_cons_self d ds)
      · rcases ih h2 with h3 | h3
        · exact Or.inl h3
        · exact Or.inr (List.mem_cons_of_mem d h3)

theorem sep_mem_collapseAux {c : Char} {b : Bool} {l : List Char}
    (h : c ∈ collapseAux b l) (hs : isSep c = true) : c = ' ' := by
  induction l generalizing b with
  | nil => exact absurd h (by simp [collapseAux])
  | cons d ds ih =>
    by_cases hd : isSep d = true
    · cases b with
      | true =>
        rw [(collapseAux_cons_sep ds hd).2] at h
        exact ih h
      | false =>
        rw [(collapseAux_cons_sep ds hd).1] at h
        rcases List.mem_cons.mp h with h2 | h2
        · exact h2
        · exact ih h2
    · have hd' : isSep d = false := by revert hd; cases isSep d <;> simp
      rw [collapseAux_cons_nonsep b ds hd'] at h
      rcases List.mem_cons.mp h with h2 | h2
      · exact absurd (h2 ▸ hs) (by rw [hd']; simp)
      · exact ih h2

theorem collapseAux_idem : ∀ (l : List Char),
    (∀ b, collapseAux b (collapseAux true l) = collapseAux true l) ∧
    (collapseAux false (collapseAux false l) = collapseAux false l) := by
  intro l
  induction l with
  | nil => exact ⟨fun b => rfl, rfl⟩
  | cons c cs ih =>
    by_cases hc : isSep c = true
    · constructor
      · intro b
        rw [(collapseAux_cons_sep cs hc).2]
        exact ih.1 b
      · rw [(collapseAux_cons_sep cs hc).1,
          (collapseAux_cons_sep (collapseAux true cs) (by decide)).1, ih.1 true]
    · have hc' : isSep c = false := by revert hc; cases isSep c <;> simp
      constructor
      · intro b
        rw [collapseAux_cons_nonsep true cs hc', collapseAux_cons_nonsep b _ hc', ih.2]
      · rw [collapseAux_cons_nonsep false cs hc', collapseAux_cons_nonsep false _ hc', ih.2]

theorem getLast?_cons_of_ne_nil {α : Type} {c : α} {l : List α} (h : l ≠ []) :
    (c :: l).getLast? = l.getLast? := by
  cases l with
  | nil => exact absurd rfl h
  | cons d ds => exact List.getLast?_cons_cons

theorem collapseAux_getLast? : ∀ (l : List Char) (b : Bool),
    (∀ c ∈ l.getLast?, isSep c = false) →
    (collapseAux b l).getLast? = l.getLast? := by
  intro l
  induction l with
  | nil => intro b _; rfl
  | cons c cs ih =>
    intro b h
    cases cs with
    | nil =>
      have hc : isSep c = false := h c rfl
      rw [collapseAux_cons_nonsep b [] hc]
      rfl
    | cons d ds =>
      have htail : ∀ x ∈ (d :: ds).getLast?, isSep x = false := by
        intro x hx
        refine h x ?_
        rw [List.getLast?_cons_cons]
        exact hx
      have hne : (collapseAux true (d :: ds)).getLast? = (d :: ds).getLast? :=
        ih true htail
      have hne' : (collapseAux false (d :: ds)).getLast? = (d :: ds).getLast? :=
        ih false htail
      have hnn : (d :: ds).getLast? ≠ none := by
        intro hx
        rw [List.getLast?_eq_none_iff] at hx
        exact List.cons_ne_nil d ds hx
      by_cases hc : isSep c = true
      · cases b with
        | true =>
          rw [(collapseAux_cons_sep (d :: ds) hc).2, hne, List.getLast?_cons_cons]
        | false =>
          rw [(collapseAux_cons_sep (d :: ds) hc).1]
          rw [getLast?_cons_of_ne_nil (by
            intro hnil
            rw [hnil] at hne
            exact hnn (hne.symm.trans rfl))]
          rw [hne, List.getLast?_cons_cons]
      · have hc' : isSep c = false := by revert hc; cases isSep c <;> simp
        rw [collapseAux_cons_nonsep b (d :: ds) hc']
        rw [getLast?_cons_of_ne_nil (by
          intro hnil
          rw [hnil] at hne'
          exact hnn (hne'.symm.trans rfl))]
        rw [hne', List.getLast?_cons_cons]

theorem dropWhile_head_not {p : Char → Bool} : ∀ {l : List Char} {c : Char},
    c ∈ (l.dropWhile p).head? → p c = false := by
  intro l
  induction l with
  | nil => intro c h; exact absurd h (by simp)
  | cons d ds ih =>
    intro c h
    rw [List.dropWhile_cons] at h
    by_cases hd : p d = true
    · rw [if_pos hd] at h
      exact ih h
    · rw [if_neg hd] at h
      have hcd : d = c := by simpa using h
      rw [← hcd]
      revert hd
      cases p d <;> simp

theorem getLast?_dropWhile {p : Char → Bool} : ∀ (l : List Char),
    l.dropWhile p = [] ∨ (l.dropWhile p).getLast? = l.getLast? := by
  intro l
  induction l with
  | nil => exact Or.inl rfl
  | cons c cs ih =>
    rw [List.dropWhile_cons]
    by_cases hc : p c = true
    · rw [if_pos hc]
      rcases ih with h | h
      · exact Or.inl h
      · cases cs with
        | nil => exact Or.inl rfl
        | cons d ds =>
          exact Or.inr (h.trans List.getLast?_cons_cons.symm)
    · rw [if_neg hc]
      exact Or.inr rfl

theorem stripL_head {l : List Char} {c : Char} (h : c ∈ (stripL l).head?) :
    pyWS c = false := by
  unfold stripL at h
  rw [List.head?_reverse] at h
  rcases getLast?_dropWhile ((l.dropWhile pyWS).reverse) with h2 | h2
  · rw [h2] at h
    exact absurd h (by simp)
  · rw [h2, List.getLast?_reverse] at h
    exact dropWhile_head_not h

theorem stripL_getLast {l : List Char} {c : Char} (h : c ∈ (stripL l).getLast?) :
    pyWS c = false := by
  unfold stripL at h
  rw [List.getLast?_reverse] at h
  exact dropWhile_head_not h

theorem mem_stripL {l : List Char} {c : Char} (h : c ∈ stripL l) : c ∈ l := by
  unfold stripL at h
  rw [List.mem_reverse] at h
  have h2 := (List.dropWhile_sublist pyWS).mem h
  rw [List.mem_reverse] at h2
  exact (List.dropWhile_sublist pyWS).mem h2

theorem stripL_eq_self {l : List Char} (h1 : ∀ c ∈ l.head?, pyWS c = false)
    (h2 : ∀ c ∈ l.getLast?, pyWS c = false) : stripL l = l := by
  unfold stripL
  have d1 : l.dropWhile pyWS = l := by
    cases l with
    | nil => rfl
    | cons c cs =>
      rw [List.dropWhile_cons, if_neg (by rw [h1 c rfl]; simp)]
  rw [d1]
  have d2 : l.reverse.dropWhile pyWS = l.reverse := by
    cases hr : l.reverse with
    | nil => rfl
    | cons c cs =>
      have hc : c ∈ l.getLast? := by
        rw [← List.head?_reverse, hr]
        rfl
      rw [List.dropWhile_cons, if_neg (by rw [h2 c hc]; simp)]
  rw [d2, List.reverse_reverse]

theorem lowerL_eq_self {l : List Char} (h : ∀ c ∈ l, pyLower c = c) :
    lowerL l = l := by
  unfold lowerL
  induction l with
  | nil => rfl
  | cons c cs ih =>
    rw [List.map_cons, h c (List.mem_cons_self c cs),
      ih (fun x hx => h x (List.mem_cons_of_mem c hx))]

theorem normalizeL_def_of_ne_nil {l : List Char} (h : l ≠ []) :
    normalizeL l = collapseAux false (lowerL (stripL l)) := by
  unfold normalizeL collapseL
  rw [if_neg h]

theorem isSep_false_of_not_sep {c : Char} (h : isSep c = false) : pyWS c = false := by
  cases hw : pyWS c
  · rfl
  · rw [isSep_of_pyWS hw] at h
    exact absurd h (by simp)

theorem normalizeL_fix {t : List Char} (hsept : ∀ c ∈ t, isSep c = true → c = ' ') :
    normalizeL (normalizeL t) = normalizeL t := by
  by_cases hu : normalizeL t = []
  · rw [hu]
    rfl
  · have htne : t ≠ [] := by
      intro h0
      rw [h0] at hu
      exact hu rfl
    have hudef : normalizeL t = collapseAux false (lowerL (stripL t)) :=
      normalizeL_def_of_ne_nil htne
    have hwhead : ∀ c ∈ (stripL t).head?, isSep c = false := by
      intro c hc
      have hws := stripL_head hc
      have hmem : c ∈ t := mem_stripL (List.mem_of_mem_head? hc)
      cases hs : isSep c
      · rfl
      · exfalso
        have hsp := hsept c hmem hs
        rw [hsp] at hws
        exact absurd hws (by simp [pyWS])
    have hwlast : ∀ c ∈ (stripL t).getLast?, isSep c = false := by
      intro c hc
      have hws := stripL_getLast hc
      have hmem : c ∈ t := mem_stripL (List.mem_of_mem_getLast? hc)
      cases hs : isSep c
      · rfl
      · exfalso
        have hsp := hsept c hmem hs
        rw [hsp] at hws
        exact absurd hws (by simp [pyWS])
    have hlwhead : ∀ c ∈ (lowerL (stripL t)).head?, isSep c = false := by
      intro c hc
      unfold lowerL at hc
      rw [List.head?_map] at hc
      cases hwh : (stripL t).head? with
      | none =>
        rw [hwh] at hc
        exact absurd hc (by simp)
      | some d =>
        rw [hwh] at hc
        have hcd : pyLower d = c := by simpa using hc
        rw [← hcd, isSep_pyLower]
        exact hwhead d (by rw [hwh]; rfl)
    have hlwlast : ∀ c ∈ (lowerL (stripL t)).getLast?, isSep c = false := by
      intro c hc
      unfold lowerL at hc
      rw [List.getLast?_map] at hc
      cases hwh : (stripL t).getLast? with
      | none =>
        rw [hwh] at hc
        exact absurd hc (by simp)
      | some d =>
        rw [hwh] at hc
        have hcd : pyLower d = c := by simpa using hc
        rw [← hcd, isSep_pyLower]
        exact hwlast d (by rw [hwh]; rfl)
    have huhead : ∀ c ∈ (normalizeL t).head?, pyWS c = false := by
      rw [hudef]
      cases hlw : lowerL (stripL t) with
      | nil =>
        intro c hc
        exact absurd hc (by simp [collapseAux])
      | cons c0 cs0 =>
        have hc0 : isSep c0 = false := hlwhead c0 (by rw [hlw]; rfl)
        rw [collapseAux_cons_nonsep false cs0 hc0]
        intro c hc
        have hcc : c0 = c := by simpa using hc
        rw [← hcc]
        exact isSep_false_of_not_sep hc0
    have hulast : ∀ c ∈ (normalizeL t).getLast?, pyWS c = false := by
      have hgl : (normalizeL t).getLast? = (lowerL (stripL t)).getLast? := by
        rw [hudef]
        exact collapseAux_getLast? (lowerL (stripL t)) false hlwlast
      rw [hgl]
      intro c hc
      exact isSep_false_of_not_sep (hlwlast c hc)
    have hstrip : stripL (normalizeL t) = normalizeL t := stripL_eq_self huhead hulast
    have hlower : lowerL (normalizeL t) = normalizeL t := by
      apply lowerL_eq_self
      intro c hc
      rw [hudef] at hc
      rcases mem_collapseAux hc with h1 | h1
      · rw [h1]
        decide
      · unfold lowerL at h1
        rcases List.mem_map.mp h1 with ⟨d, _, hd⟩
        rw [← hd]
        exact pyLower_idem d
    have hcoll : collapseAux false (normalizeL t) = normalizeL t := by
      rw [hudef]
      exact (collapseAux_idem (lowerL (stripL t))).2
    rw [normalizeL_def_of_ne_nil hu, hstrip, hlower, hcoll]

theorem normalizeL_twice_fix (l : List Char) :
    normalizeL (normalizeL (normalizeL l)) = normalizeL (normalizeL l) := by
  by_cases h : l = []
  · rw [h]
    rfl
  · apply normalizeL_fix
    intro c hc hs
    rw [normalizeL_def_of_ne_nil h] at hc
    exact sep_mem_collapseAux hc hs

/-! ### Helper lemmas: column standardization -/

theorem string_data_inj {s t : String} (h : s.data = t.data) : s = t := by
  cases s
  cases t
  exact congrArg String.mk h

theorem underscore_append_inj :
    ∀ (c c' d d' : List Char), (∀ x ∈ d, x ≠ '_') → (∀ x ∈ d', x ≠ '_') →
    c ++ '_' :: d = c' ++ '_' :: d' → c = c' ∧ d = d' := by
  intro c
  induction c with
  | nil =>
    intro c' d d' hd hd' h
    cases c' with
    | nil =>
      simp only [List.nil_append, List.cons.injEq] at h
      exact ⟨rfl, h.2⟩
    | cons ch cs' =>
      simp only [List.nil_append, List.cons_append, List.cons.injEq] at h
      exfalso
      exact hd '_' (h.2 ▸ List.mem_append_right cs' (List.mem_cons_self '_' d')) rfl
  | cons ch cs ih =>
    intro c' d d' hd hd' h
    cases c' with
    | nil =>
      simp only [List.cons_append, List.nil_append, List.cons.injEq] at h
      exfalso
      refine hd' '_' ?_ rfl
      rw [← h.2]
      exact List.mem_append_right cs (List.mem_cons_self '_' d)
    | cons ch' cs' =>
      simp only [List.cons_append, List.cons.injEq] at h
      obtain ⟨he, ht⟩ := h
      obtain ⟨h1, h2⟩ := ih cs' d d' hd hd' ht
      exact ⟨by rw [he, h1], h2⟩

theorem suffixName_inj {k k' : String} {i j : Nat}
    (h : suffixName k i = suffixName k' j) : k = k' ∧ i = j := by
  have hd := congrArg String.data h
  unfold suffixName at hd
  obtain ⟨h1, h2⟩ := underscore_append_inj k.data k'.data (decRepr i) (decRepr j)
    (fun x hx => decRepr_ne_underscore hx) (fun x hx => decRepr_ne_underscore hx) hd
  exact ⟨string_data_inj h1, decRepr_inj h2⟩

theorem suffixName_ne_base (k : String) (i : Nat) : suffixName k i ≠ k := by
  intro h
  have hd := congrArg String.data h
  unfold suffixName at hd
  have hlen := congrArg List.length hd
  rw [List.length_append] at hlen
  simp at hlen

theorem lookupSeen_mem {k : String} {n : Nat} : ∀ {seen : List (String × Nat)},
    lookupSeen k seen = some n → (k, n) ∈ seen := by
  intro seen
  induction seen with
  | nil => intro h; exact absurd h (by simp [lookupSeen])
  | cons p rest ih =>
    intro h
    unfold lookupSeen at h
    by_cases hk : p.1 = k
    · rw [if_pos hk] at h
      have : p = (k, n) := by
        cases p
        simp_all
      exact this ▸ List.mem_cons_self p rest
    · rw [if_neg hk] at h
      exact List.mem_cons_of_mem p (ih h)

theorem lookupSeen_none {k : String} : ∀ {seen : List (String × Nat)},
    lookupSeen k seen = none → ∀ n, (k, n) ∉ seen := by
  intro seen
  induction seen with
  | nil => intro _ n h; exact absurd h (by simp)
  | cons p rest ih =>
    intro h n hmem
    unfold lookupSeen at h
    by_cases hk : p.1 = k
    · rw [if_pos hk] at h
      exact absurd h (by simp)
    · rw [if_neg hk] at h
      rcases List.mem_cons.mp hmem with h2 | h2
      · exact hk (by rw [← h2])
      · exact ih h n h2

theorem lookupSeen_of_mem_nodup {k : String} {n : Nat} :
    ∀ {seen : List (String × Nat)}, (seen.map Prod.fst).Nodup →
    (k, n) ∈ seen → lookupSeen k seen = some n := by
  intro seen
  induction seen with
  | nil => intro _ h; exact absurd h (by simp)
  | cons p rest ih =>
    intro hnd hmem
    rw [List.map_cons, List.nodup_cons] at hnd
    unfold lookupSeen
    rcases List.mem_cons.mp hmem with h2 | h2
    · rw [← h2]
      simp
    · have hk : p.1 ≠ k := by
        intro he
        exact hnd.1 (he ▸ (List.mem_map.mpr ⟨(k, n), h2, rfl⟩))
      rw [if_neg hk]
      exact ih hnd.2 h2

theorem bumpSeen_keys (k : String) : ∀ (seen : List (String × Nat)),
    (bumpSeen k seen).map Prod.fst = seen.map Prod.fst := by
  intro seen
  induction seen with
  | nil => rfl
  | cons p rest ih =>
    unfold bumpSeen
    by_cases hk : p.1 = k
    · rw [if_pos hk]
      simp
    · rw [if_neg hk]
      simp only [List.map_cons]
      rw [ih]

theorem Fam_bump {k : String} {y : String} {seen : List (String × Nat)}
    (h : Fam seen y) : Fam (bumpSeen k seen) y := by
  obtain ⟨p, hp, hy⟩ := h
  induction seen with
  | nil => exact absurd hp (by simp)
  | cons q rest ih =>
    unfold bumpSeen
    by_cases hk : q.1 = k
    · rw [if_pos hk]
      rcases List.mem_cons.mp hp with h2 | h2
      · refine ⟨(q.1, q.2 + 1), List.mem_cons_self _ _, ?_⟩
        rcases hy with hy | ⟨i, hi1, hi2, hy⟩
        · exact Or.inl (by show y = q.1; rw [hy, h2])
        · refine Or.inr ⟨i, hi1, ?_, ?_⟩
          · show i ≤ q.2 + 1
            rw [h2] at hi2
            omega
          · show y = suffixName q.1 i
            rw [hy, h2]
      · exact ⟨p, List.mem_cons_of_mem _ h2, hy⟩
    · rw [if_neg hk]
      rcases List.mem_cons.mp hp with h2 | h2
      · exact ⟨p, h2 ▸ List.mem_cons_self _ _, hy⟩
      · obtain ⟨p', hp', hy'⟩ := ih h2
        exact ⟨p', List.mem_cons_of_mem _ hp', hy'⟩

theorem Fam_bump_new {k : String} {n : Nat} : ∀ {seen : List (String × Nat)},
    lookupSeen k seen = some n → Fam (bumpSeen k seen) (suffixName k (n + 1)) := by
  intro seen
  induction seen with
  | nil => intro h; exact absurd h (by simp [lookupSeen])
  | cons p rest ih =>
    intro h
    unfold lookupSeen at h
    unfold bumpSeen
    by_cases hk : p.1 = k
    · rw [if_pos hk] at h ⊢
      have hn : p.2 = n := by simpa using h
      refine ⟨(p.1, p.2 + 1), List.mem_cons_self _ _, Or.inr ⟨n + 1, by omega, by omega, ?_⟩⟩
      rw [hk]
    · rw [if_neg hk] at h ⊢
      obtain ⟨p', hp', hy'⟩ := ih h
      exact ⟨p', List.mem_cons_of_mem _ hp', hy'⟩

theorem Fam_cons {q : String × Nat} {y : String} {seen : List (String × Nat)}
    (h : Fam seen y) : Fam (q :: seen) y := by
  obtain ⟨p, hp, hy⟩ := h
  exact ⟨p, List.mem_cons_of_mem q hp, hy⟩

theorem stdColsAux_spec (S : List String)
    (HS : ∀ c ∈ S, ∀ c' ∈ S, ∀ k, 1 ≤ k → c ≠ suffixName c' k) :
    ∀ (cols : List String) (seen : List (String × Nat)),
    (∀ col ∈ cols, cleanName col ∈ S) →
    (∀ p ∈ seen, p.1 ∈ S) →
    ((seen.map Prod.fst).Nodup) →
    (stdColsAux cols seen).Nodup ∧ (∀ y ∈ stdColsAux cols seen, ¬ Fam seen y) := by
  intro cols
  induction cols with
  | nil =>
    intro seen _ _ _
    exact ⟨List.nodup_nil, by simp [stdColsAux]⟩
  | cons col cols ih =>
    intro seen hcols hkeys hnd
    have hcolS : cleanName col ∈ S := hcols col (List.mem_cons_self col cols)
    have hcols' : ∀ c ∈ cols, cleanName c ∈ S :=
      fun c hc => hcols c (List.mem_cons_of_mem col hc)
    unfold stdColsAux
    cases hlk : lookupSeen (cleanName col) seen with
    | some n =>
      have hkeys' : ∀ p ∈ bumpSeen (cleanName col) seen, p.1 ∈ S := by
        intro p hp
        have hm : p.1 ∈ (bumpSeen (cleanName col) seen).map Prod.fst :=
          List.mem_map_of_mem Prod.fst hp
        rw [bumpSeen_keys] at hm
        rcases List.mem_map.mp hm with ⟨q, hq, he⟩
        exact he ▸ hkeys q hq
      have hnd' : ((bumpSeen (cleanName col) seen).map Prod.fst).Nodup := by
        rw [bumpSeen_keys]
        exact hnd
      obtain ⟨ihnd, ihfam⟩ := ih (bumpSeen (cleanName col) seen) hcols' hkeys' hnd'
      have hnew_notin :
          suffixName (cleanName col) (n + 1) ∉ stdColsAux cols (bumpSeen (cleanName col) seen) := by
        intro hmem
        exact ihfam _ hmem (Fam_bump_new hlk)
      have hnew_nofam : ¬ Fam seen (suffixName (cleanName col) (n + 1)) := by
        rintro ⟨p, hp, hy | ⟨i, hi1, hi2, hy⟩⟩
        · exact HS p.1 (hkeys p hp) (cleanName col) hcolS (n + 1) (by omega) hy.symm
        · obtain ⟨hk, hi⟩ := suffixName_inj hy
          have hpmem : (cleanName col, p.2) ∈ seen := by
            rw [hk]
            exact hp
          have hp2 := lookupSeen_of_mem_nodup hnd hpmem
          rw [hlk] at hp2
          injection hp2 with hv
          omega
      refine ⟨List.nodup_cons.mpr ⟨hnew_notin, ihnd⟩, ?_⟩
      intro y hy
      rcases List.mem_cons.mp hy with h2 | h2
      · rw [h2]
        exact hnew_nofam
      · intro hf
        exact ihfam y h2 (Fam_bump hf)
    | none =>
      have hkeys' : ∀ p ∈ (cleanName col, 0) :: seen, p.1 ∈ S := by
        intro p hp
        rcases List.mem_cons.mp hp with h2 | h2
        · rw [h2]
          exact hcolS
        · exact hkeys p h2
      have hnd' : (((cleanName col, 0) :: seen).map Prod.fst).Nodup := by
        rw [List.map_cons, List.nodup_cons]
        refine ⟨?_, hnd⟩
        intro hmem
        rcases List.mem_map.mp hmem with ⟨q, hq, he⟩
        refine lookupSeen_none hlk q.2 ?_
        have hq2 : q = (cleanName col, q.2) := by
          cases q
          simp_all
        rw [← hq2]
        exact hq
      obtain ⟨ihnd, ihfam⟩ := ih ((cleanName col, 0) :: seen) hcols' hkeys' hnd'
      have hnew_notin : cleanName col ∉ stdColsAux cols ((cleanName col, 0) :: seen) := by
        intro hmem
        exact ihfam _ hmem ⟨(cleanName col, 0), List.mem_cons_self _ _, Or.inl rfl⟩
      have hnew_nofam : ¬ Fam seen (cleanName col) := by
        rintro ⟨p, hp, hy | ⟨i, hi1, hi2, hy⟩⟩
        · refine lookupSeen_none hlk p.2 ?_
          have hp2 : p = (cleanName col, p.2) := by
            cases p
            simp_all
          rw [← hp2]
          exact hp
        · exact HS (cleanName col) hcolS p.1 (hkeys p hp) i hi1 hy
      refine ⟨List.nodup_cons.mpr ⟨hnew_notin, ihnd⟩, ?_⟩
      intro y hy
      rcases List.mem_cons.mp hy with h2 | h2
      · rw [h2]
        exact hnew_nofam
      · intro hf
        exact ihfam y h2 (Fam_cons hf)

theorem cleanName_ne_suffix_of_le {c k' : String} {k : Nat}
    (h : c.data.length ≤ k'.data.length) : c ≠ suffixName k' k := by
  intro he
  have hd := congrArg String.data he
  unfold suffixName at hd
  have hlen := congrArg List.length hd
  rw [List.length_append] at hlen
  have hpos : 0 < (decRepr k).length := List.length_pos.mpr (decRepr_ne_nil k)
  simp only [List.length_cons] at hlen
  omega

/-! ### Helper lemmas: `safe_target_path` -/

theorem splitDot_ne_nil (l : List Char) : splitDot l ≠ [] := by
  cases l with
  | nil => simp [splitDot]
  | cons c cs =>
    unfold splitDot
    by_cases hc : c = '.'
    · rw [if_pos hc]
      simp
    · rw [if_neg hc]
      cases splitDot cs <;> simp

theorem candidateL_inj {base : List Char} {i j : Nat}
    (h : candidateL base i = candidateL base j) : i = j := by
  unfold candidateL at h
  cases hs : splitDot base with
  | nil => exact absurd hs (splitDot_ne_nil base)
  | cons p rest =>
    rw [hs] at h
    cases rest with
    | nil =>
      simp only [joinDot] at h
      have h2 := List.append_cancel_left h
      have h3 : decRepr i = decRepr j := by
        injection h2
      exact decRepr_inj h3
    | cons q qs =>
      simp only [joinDot] at h
      have h2 := List.append_cancel_right h
      have h3 := List.append_cancel_left h2
      have h4 : decRepr i = decRepr j := by
        injection h3
      exact decRepr_inj h4

theorem candidate_inj {base : String} {i j : Nat}
    (h : candidate base i = candidate base j) : i = j :=
  candidateL_inj (congrArg String.data h)

theorem stpGo_shape (existing : List String) (base : String) :
    ∀ (fuel i : Nat), ∃ j, i ≤ j ∧ stpGo existing base i fuel = candidate base j := by
  intro fuel
  induction fuel with
  | zero => intro i; exact ⟨i, Nat.le_refl i, rfl⟩
  | succ f ih =>
    intro i
    unfold stpGo
    by_cases hm : candidate base i ∈ existing
    · rw [if_pos hm]
      obtain ⟨j, hj, he⟩ := ih (i + 1)
      exact ⟨j, by omega, he⟩
    · rw [if_neg hm]
      exact ⟨i, Nat.le_refl i, rfl⟩

theorem stpGo_congr (base : String) (existing : List String) (x : String) :
    ∀ (fuel i : Nat), (∀ j, i ≤ j → candidate base j ≠ x) →
    stpGo existing base i fuel = stpGo (existing.erase x) base i fuel := by
  intro fuel
  induction fuel with
  | zero => intro i _; rfl
  | succ f ih =>
    intro i h
    unfold stpGo
    have hne : candidate base i ≠ x := h i (Nat.le_refl i)
    have hmem : candidate base i ∈ existing.erase x ↔ candidate base i ∈ existing :=
      List.mem_erase_of_ne hne
    by_cases hm : candidate base i ∈ existing
    · rw [if_pos hm, if_pos (hmem.mpr hm)]
      exact ih (i + 1) (fun j hj => h j (by omega))
    · rw [if_neg hm, if_neg (fun hc => hm (hmem.mp hc))]

theorem stpGo_not_mem (base : String) :
    ∀ (fuel : Nat) (existing : List String) (i : Nat),
    existing.length < fuel → stpGo existing base i fuel ∉ existing := by
  intro fuel
  induction fuel with
  | zero => intro existing i h; omega
  | succ f ih =>
    intro existing i h
    unfold stpGo
    by_cases hm : candidate base i ∈ existing
    · rw [if_pos hm]
      have hcong : ∀ j, i + 1 ≤ j → candidate base j ≠ candidate base i := by
        intro j hj he
        have := candidate_inj he
        omega
      rw [stpGo_congr base existing (candidate base i) f (i + 1) hcong]
      have hlen : (existing.erase (candidate base i)).length < f := by
        rw [List.length_erase_of_mem hm]
        have hpos : 0 < existing.length := List.length_pos.mpr (by
          intro hnil
          rw [hnil] at hm
          exact absurd hm (by simp))
        omega
      have hres := ih (existing.erase (candidate base i)) (i + 1) hlen
      obtain ⟨j, hj, hshape⟩ := stpGo_shape (existing.erase (candidate base i)) base f (i + 1)
      intro habs
      apply hres
      rw [hshape] at habs ⊢
      exact (List.mem_erase_of_ne (fun he => by have := candidate_inj he; omega)).mpr habs
    · rw [if_neg hm]
      exact hm

/-! ### Claim theorems -/

/-- Claim C8: `safe_target_path` never picks a name already present in the
destination directory; the result is the base name or the base name with an
incrementing numeric suffix spliced in before the (first) extension; in
particular, with `Filings_2024-01-01.csv` present, the base name
`Filings_2024-01-01.csv` resolves to `Filings_2024-01-01_1.csv`. -/
theorem C8_safe_target_path_no_clobber :
    (∀ (existing : List String) (base : String),
      safe_target_path existing base ∉ existing ∧
      (safe_target_path existing base = base ∨
        ∃ j, 1 ≤ j ∧ safe_target_path existing base = candidate base j)) ∧
    safe_target_path ["Filings_2024-01-01.csv"] "Filings_2024-01-01.csv" =
      "Filings_2024-01-01_1.csv" := by
  constructor
  · intro existing base
    unfold safe_target_path
    by_cases hm : base ∈ existing
    · rw [if_pos hm]
      refine ⟨stpGo_not_mem base (existing.length + 1) existing 1 (by omega), ?_⟩
      obtain ⟨j, hj, he⟩ := stpGo_shape existing base (existing.length + 1) 1
      exact Or.inr ⟨j, hj, he⟩
    · rw [if_neg hm]
      exact ⟨hm, Or.inl rfl⟩
  · decide

/-- Claim C5: join-key resolution picks the first of the three candidate key
pairs whose columns are both present (filings side unprefixed, agents side
with the `agent_` tag), falls back to the first column of each dataframe with
the degradation flagged (logged), and the run still produces output. -/
theorem C5_join_key_resolution :
    (∀ fcols acols : List String,
      resolveJoinKey fcols acols =
        if fcols.contains "entity_number" && acols.contains "agent_entity_number" then
          (("entity_number", "agent_entity_number"), false)
        else if fcols.contains "file_number" && acols.contains "agent_file_number" then
          (("file_number", "agent_file_number"), false)
        else if fcols.contains "entity_id" && acols.contains "agent_entity_id" then
          (("entity_id", "agent_entity_id"), false)
        else ((fcols.headD "", acols.headD ""), true)) ∧
    (∀ (f a : DF) (d : String), dfEmpty f = false → dfEmpty a = false →
      ∃ out, enrich_and_export f a d = some out) := by
  constructor
  · intro fcols acols
    unfold resolveJoinKey possibleKeys
    by_cases m1 : "entity_number" ∈ fcols <;>
      by_cases m2 : "agent_entity_number" ∈ acols <;>
        by_cases m3 : "file_number" ∈ fcols <;>
          by_cases m4 : "agent_file_number" ∈ acols <;>
            by_cases m5 : "entity_id" ∈ fcols <;>
              by_cases m6 : "agent_entity_id" ∈ acols <;>
                simp [List.find?, m1, m2, m3, m4, m5, m6]
  · intro f a d hf ha
    exact ⟨_, by unfold enrich_and_export; rw [hf, ha]; rfl⟩

/-- Claim C7: when the filings or the agents dataframe has zero rows the
enrichment run is a no-op: the early return fires and no output file is
produced. -/
theorem C7_empty_input_no_op (f a : DF) (d : String)
    (h : f.rows = [] ∨ a.rows = []) : enrich_and_export f a d = none := by
  unfold enrich_and_export
  rcases h with h | h
  · have he : dfEmpty f = true := by
      unfold dfEmpty
      rw [h]
      rfl
    rw [he]
    rfl
  · have he : dfEmpty a = true := by
      unfold dfEmpty
      rw [h]
      rfl
    rw [he]
    simp

/-- Claim C7, witness: with an agents dataframe holding no rows, the run on a
non-empty filings dataframe writes nothing. -/
theorem C7_witness :
    ((DF.mk ["entity_number"] [[some "1001"]]).rows = [] ∨
      (DF.mk ["entity_number"] []).rows = []) ∧
    enrich_and_export (DF.mk ["entity_number"] [[some "1001"]])
      (DF.mk ["entity_number"] []) "2024-01-01" = none :=
  ⟨Or.inr rfl,
    C7_empty_input_no_op (DF.mk ["entity_number"] [[some "1001"]])
      (DF.mk ["entity_number"] []) "2024-01-01" (Or.inr rfl)⟩

theorem getCell_cons_ne {c' c : String} {cols : List String} {v : Option String}
    {row : List (Option String)} (h : c' ≠ c) :
    getCell (c' :: cols) (v :: row) c = getCell cols row c := by
  unfold getCell
  have hid : idxOf c (c' :: cols) = (idxOf c cols).map (· + 1) := by
    simp only [idxOf]
    rw [if_neg h]
  rw [hid]
  cases hx : idxOf c cols with
  | none => rfl
  | some i => simp

theorem getCell_append_right {c1 : List String} :
    ∀ {r1 : List (Option String)} {c2 : List String} {r2 : List (Option String)} {c : String},
    r1.length = c1.length → c ∉ c1 →
    getCell (c1 ++ c2) (r1 ++ r2) c = getCell c2 r2 c := by
  induction c1 with
  | nil =>
    intro r1 c2 r2 c hlen _
    have : r1 = [] := List.eq_nil_of_length_eq_zero hlen
    rw [this]
    rfl
  | cons c' cs ih =>
    intro r1 c2 r2 c hlen hnm
    cases r1 with
    | nil => exact absurd hlen (by simp)
    | cons v vs =>
      have hne : c' ≠ c := fun he => hnm (he ▸ List.mem_cons_self c' cs)
      rw [List.cons_append, List.cons_append, getCell_cons_ne hne]
      exact ih (by simpa using hlen) (fun hm => hnm (List.mem_cons_of_mem c' hm))

theorem getCell_nullRow : ∀ (cols : List String) (c : String),
    getCell cols (nullRow cols) c = none := by
  intro cols
  induction cols with
  | nil => intro c; rfl
  | cons c' cs ih =>
    intro c
    by_cases h : c' = c
    · unfold getCell idxOf
      rw [if_pos h]
      rfl
    · have hstep : nullRow (c' :: cs) = none :: nullRow cs := rfl
      rw [hstep, getCell_cons_ne h]
      exact ih c

theorem joinSp_all_empty_chars : ∀ {xs : List String}, (∀ x ∈ xs, x = "") →
    ∀ ch ∈ (joinSp xs).data, ch = ' ' := by
  intro xs
  induction xs with
  | nil => intro _ ch hch; exact absurd hch (by simp [joinSp])
  | cons x ys ih =>
    intro h ch hch
    cases ys with
    | nil =>
      unfold joinSp at hch
      rw [h x (List.mem_cons_self x [])] at hch
      exact absurd hch (by simp)
    | cons y rest =>
      unfold joinSp at hch
      rw [String.data_append, String.data_append] at hch
      rcases List.mem_append.mp hch with hch2 | hch2
      · rcases List.mem_append.mp hch2 with hch3 | hch3
        · rw [h x (List.mem_cons_self x (y :: rest))] at hch3
          exact absurd hch3 (by simp)
        · simpa using hch3
      · exact ih (fun z hz => h z (List.mem_cons_of_mem x hz)) ch hch2

theorem normalize_addr_all_space {s : String} (h : ∀ ch ∈ s.data, ch = ' ') :
    normalize_addr s = "" := by
  unfold normalize_addr normalizeL
  by_cases he : s.data = []
  · rw [if_pos he]
  · rw [if_neg he]
    have hstrip : stripL s.data = [] := by
      unfold stripL
      have hd : s.data.dropWhile pyWS = [] := by
        rw [List.dropWhile_eq_nil_iff]
        intro x hx
        rw [h x hx]
        decide
      rw [hd]
      rfl
    rw [hstrip]
    rfl

theorem is_personal_iff {e : String} :
    is_personal e = true ↔
      (hasSub ['@'] e.data = true ∧
        ∃ d ∈ consumerDomains, strEndsWith ⟨lowerL (afterLastAt e.data)⟩ d = true) := by
  unfold is_personal
  by_cases h : hasSub ['@'] e.data = true
  · rw [if_pos h, List.any_eq_true]
    constructor
    · rintro ⟨d, hd, hp⟩
      exact ⟨h, d, hd, hp⟩
    · rintro ⟨_, d, hd, hp⟩
      exact ⟨d, hd, hp⟩
  · rw [if_neg h]
    constructor
    · intro hF
      exact absurd hF (by simp)
    · rintro ⟨h1, _⟩
      exact absurd h1 h

/-- Claim C6: `has_personal_email` is true exactly when some column whose
name contains `"email"` holds a value containing `'@'` whose lower-cased
text after the last `'@'` ends with a consumer domain; `jane@gmail.com`
qualifies, `jane@acmecorp.com` does not; and a schema with no email-like
column gives `false` on every row. -/
theorem C6_has_personal_email :
    (∀ (cols : List String) (row : List (Option String)),
      hasPersonalEmail cols row = true ↔
        ∃ c ∈ cols, containsSub c "email" = true ∧
          hasSub ['@'] ((getCell cols row c).getD "").data = true ∧
          ∃ d ∈ consumerDomains,
            strEndsWith ⟨lowerL (afterLastAt ((getCell cols row c).getD "").data)⟩ d = true) ∧
    is_personal "jane@gmail.com" = true ∧
    is_personal "jane@acmecorp.com" = false ∧
    (∀ (cols : List String) (row : List (Option String)),
      (∀ c ∈ cols, containsSub c "email" = false) → hasPersonalEmail cols row = false) := by
  refine ⟨?_, by decide, by decide, ?_⟩
  · intro cols row
    unfold hasPersonalEmail
    by_cases h : (emailCols cols).isEmpty = true
    · rw [if_pos h]
      constructor
      · intro hf
        exact absurd hf (by simp)
      · rintro ⟨c, hc, hcc, _⟩
        exfalso
        have hmem : c ∈ emailCols cols := List.mem_filter.mpr ⟨hc, hcc⟩
        rw [List.isEmpty_iff.mp h] at hmem
        exact absurd hmem (by simp)
    · rw [if_neg h, List.any_eq_true]
      constructor
      · rintro ⟨c, hcf, hp⟩
        have hm := List.mem_filter.mp hcf
        obtain ⟨h1, h2⟩ := is_personal_iff.mp hp
        exact ⟨c, hm.1, hm.2, h1, h2⟩
      · rintro ⟨c, hc, hcc, h1, h2⟩
        exact ⟨c, List.mem_filter.mpr ⟨hc, hcc⟩, is_personal_iff.mpr ⟨h1, h2⟩⟩
  · intro cols row h
    unfold hasPersonalEmail
    have he : emailCols cols = [] := by
      unfold emailCols
      rw [List.filter_eq_nil_iff]
      intro c hc
      rw [h c hc]
      simp
    rw [he]
    rfl

/-- Claim C6, witness: a schema with no email-like column yields a false
flag. -/
theorem C6_witness :
    (∀ c ∈ ["name"], containsSub c "email" = false) ∧
    hasPersonalEmail ["name"] [some "Bob"] = false :=
  ⟨by decide, C6_has_personal_email.2.2.2 ["name"] [some "Bob"] (by decide)⟩

/-- Claim C5, witness: with `entity_number` on both sides and one row each,
both inputs are non-empty and the run produces output. -/
theorem C5_witness :
    dfEmpty (DF.mk ["entity_number"] [[some "1001"]]) = false ∧
    ∃ out, enrich_and_export (DF.mk ["entity_number"] [[some "1001"]])
      (DF.mk ["entity_number"] [[some "1001"]]) "2024-01-01" = some out :=
  ⟨by decide,
    C5_join_key_resolution.2 (DF.mk ["entity_number"] [[some "1001"]])
      (DF.mk ["entity_number"] [[some "1001"]]) "2024-01-01" (by decide) (by decide)⟩

/-- Claim C2, counterexample: an unmatched filing row whose business address
columns are all empty strings gets `business_full_address = " "` (non-empty),
yet `agent_differs_from_business_address` is `false`, because both sides
normalize to the empty string.  This refutes the parenthetical "business
address non-empty implies the flag is true" as literally stated. -/
theorem C2_counterexample :
    (mergeLeft
      (DF.mk ["entity_number", "mailing_address", "street_address"]
        [[some "1", some "", some ""]])
      (DF.mk ["agent_entity_number", "agent_address"] [])
      "entity_number" "agent_entity_number").rows =
      [[some "1", some "", some "", none, none]] ∧
    business_full_address
      ["entity_number", "mailing_address", "street_address",
        "agent_entity_number", "agent_address"]
      [some "1", some "", some "", none, none] ≠ "" ∧
    agentDiffers
      ["entity_number", "mailing_address", "street_address",
        "agent_entity_number", "agent_address"]
      [some "1", some "", some "", none, none] = false := by
  decide

/-- Claim C2, amended: the left merge keeps every filing row (each joined row
extends it); a filing row with zero key matches contributes exactly one joined
row padded with NaN agent fields, and — when the joined schemas are disjoint,
the filings side carries no `agent_` tag and the NORMALIZED business address
is non-empty — that row's `agent_differs_from_business_address` is true; a
filing row with exactly two key matches contributes exactly two joined rows. -/
theorem C2_left_merge (f a : DF) (fkey akey : String) :
    ((mergeLeft f a fkey akey).rows = f.rows.flatMap (expandRow f a fkey akey)) ∧
    (∀ fr ∈ f.rows, ∃ rest, fr ++ rest ∈ (mergeLeft f a fkey akey).rows) ∧
    (∀ fr, a.rows.filter (fun ar => keyMatches f.cols fr fkey a.cols ar akey) = [] →
      expandRow f a fkey akey fr = [fr ++ nullRow a.cols] ∧
      (fr.length = f.cols.length →
        (∀ c ∈ a.cols, c ∉ f.cols) →
        (∀ c ∈ f.cols, strStartsWith c "agent_" = false) →
        normalize_addr (business_full_address (f.cols ++ a.cols)
          (fr ++ nullRow a.cols)) ≠ "" →
        agentDiffers (f.cols ++ a.cols) (fr ++ nullRow a.cols) = true)) ∧
    (∀ fr ar1 ar2,
      a.rows.filter (fun ar => keyMatches f.cols fr fkey a.cols ar akey) = [ar1, ar2] →
      expandRow f a fkey akey fr = [fr ++ ar1, fr ++ ar2]) := by
  refine ⟨rfl, ?_, ?_, ?_⟩
  · intro fr hfr
    cases hflt : a.rows.filter (fun ar => keyMatches f.cols fr fkey a.cols ar akey) with
    | nil =>
      refine ⟨nullRow a.cols, List.mem_flatMap.mpr ⟨fr, hfr, ?_⟩⟩
      simp [expandRow, hflt]
    | cons ar ars =>
      refine ⟨ar, List.mem_flatMap.mpr ⟨fr, hfr, ?_⟩⟩
      simp [expandRow, hflt]
  · intro fr hflt
    constructor
    · simp [expandRow, hflt]
    · intro hlen hdisj htag hbus
      have hsplit : agentAddrCols (f.cols ++ a.cols) = agentAddrCols a.cols := by
        unfold agentAddrCols
        rw [List.filter_append]
        have hf0 : f.cols.filter
            (fun c => strStartsWith c "agent_" && containsSub c "address") = [] := by
          rw [List.filter_eq_nil_iff]
          intro c hc
          rw [htag c hc]
          simp
        rw [hf0]
        rfl
      have hcomp : ∀ x ∈ (agentAddrCols (f.cols ++ a.cols)).map
          (fun c => (getCell (f.cols ++ a.cols) (fr ++ nullRow a.cols) c).getD ""), x = "" := by
        intro x hx
        rcases List.mem_map.mp hx with ⟨c, hc, he⟩
        rw [hsplit] at hc
        have hca : c ∈ a.cols := (List.mem_filter.mp hc).1
        rw [← he, getCell_append_right hlen (hdisj c hca), getCell_nullRow]
        rfl
      have hag : normalize_addr (agent_full_address (f.cols ++ a.cols)
          (fr ++ nullRow a.cols)) = "" := by
        apply normalize_addr_all_space
        exact joinSp_all_empty_chars hcomp
      unfold agentDiffers
      rw [hag]
      have hne : ("" : String) ≠ normalize_addr (business_full_address (f.cols ++ a.cols)
          (fr ++ nullRow a.cols)) := fun he => hbus he.symm
      rw [beq_eq_false_iff_ne.mpr hne]
      rfl
  · intro fr ar1 ar2 hflt
    simp [expandRow, hflt]

/-- Claim C2, witness: one filing row, no matching agent rows, one non-empty
business address column: the unmatched joined row has the flag set. -/
theorem C2_witness :
    ((DF.mk ["agent_entity_number", "agent_address"] []).rows.filter
      (fun ar => keyMatches ["entity_number", "address"]
        [some "1001", some "123 Main St"] "entity_number"
        ["agent_entity_number", "agent_address"] ar "agent_entity_number") = []) ∧
    agentDiffers (["entity_number", "address"] ++ ["agent_entity_number", "agent_address"])
      ([some "1001", some "123 Main St"] ++ nullRow ["agent_entity_number", "agent_address"]) =
      true :=
  ⟨rfl,
    ((C2_left_merge (DF.mk ["entity_number", "address"]
        [[some "1001", some "123 Main St"]])
      (DF.mk ["agent_entity_number", "agent_address"] [])
      "entity_number" "agent_entity_number").2.2.1
      [some "1001", some "123 Main St"] rfl).2
      (by decide) (by decide) (by decide) (by decide)⟩

theorem idxOf_mem {c : String} : ∀ {cols : List String} {i : Nat},
    idxOf c cols = some i → c ∈ cols := by
  intro cols
  induction cols with
  | nil => intro i h; exact absurd h (by simp [idxOf])
  | cons c' cs ih =>
    intro i h
    by_cases he : c' = c
    · rw [he]
      exact List.mem_cons_self c cs
    · simp only [idxOf] at h
      rw [if_neg he] at h
      rcases Option.map_eq_some'.mp h with ⟨j, hj, _⟩
      exact List.mem_cons_of_mem c' (ih hj)

theorem getCell_map_std {cols : List String} {row : List (Option String)}
    {c : String} {i : Nat} {v : Option String}
    (hidx : idxOf c cols = some i) (hrow : row.get? i = some v) :
    getCell cols (row.map (fun w => some (stdCell w))) c = some (stdCell v) := by
  unfold getCell
  rw [hidx]
  have hm : (row.map (fun w => some (stdCell w))).get? i = some (some (stdCell v)) := by
    rw [List.get?_map, hrow]
    rfl
  show ((row.map (fun w => some (stdCell w))).get? i).getD none = some (stdCell v)
  rw [hm]
  rfl

theorem mem_joinSp_isInfix {x : String} : ∀ {xs : List String}, x ∈ xs →
    List.IsInfix x.data (joinSp xs).data := by
  intro xs
  induction xs with
  | nil => intro h; exact absurd h (by simp)
  | cons x0 ys ih =>
    intro h
    cases ys with
    | nil =>
      have hx : x = x0 := by simpa using h
      rw [hx]
      exact ⟨[], [], by simp [joinSp]⟩
    | cons y rest =>
      rcases List.mem_cons.mp h with h2 | h2
      · refine ⟨[], " ".data ++ (joinSp (y :: rest)).data, ?_⟩
        simp only [joinSp]
        rw [String.data_append, String.data_append, ← h2]
        simp
      · obtain ⟨s, t, hst⟩ := ih h2
        refine ⟨(x0 ++ " ").data ++ s, t, ?_⟩
        simp only [joinSp]
        have hr : (x0 ++ " " ++ joinSp (y :: rest)).data =
            (x0.data ++ " ".data) ++ (joinSp (y :: rest)).data := by
          rw [String.data_append, String.data_append]
        rw [hr, ← hst, String.data_append]
        simp

/-- Claim C9: `_standardize_columns` renders a missing (NaN) cell as the
literal string `"nan"` via `astype(str)`, so the later `fillna("")` has no
effect on it (`getD ""` still yields `"nan"`), and the token `nan` ends up
embedded in `business_full_address` (respectively `agent_full_address` for an
agent-side address column) of a row built from that cell. -/
theorem C9_nan_cells (cols : List String) (row : List (Option String))
    (c : String) (i : Nat)
    (hidx : idxOf c cols = some i) (hrow : row.get? i = some none)
    (haddr : containsSub c "address" = true) :
    (getCell cols (row.map (fun w => some (stdCell w))) c).getD "" = "nan" ∧
    (strStartsWith c "agent_" = false →
      List.IsInfix "nan".data
        (business_full_address cols (row.map (fun w => some (stdCell w)))).data) ∧
    (strStartsWith c "agent_" = true →
      List.IsInfix "nan".data
        (agent_full_address cols (row.map (fun w => some (stdCell w)))).data) := by
  have hcell : (getCell cols (row.map (fun w => some (stdCell w))) c).getD "" = "nan" := by
    rw [getCell_map_std hidx hrow]
    decide
  refine ⟨hcell, ?_, ?_⟩
  · intro htag
    apply mem_joinSp_isInfix
    refine List.mem_map.mpr ⟨c, ?_, hcell⟩
    unfold businessAddrCols
    refine List.mem_filter.mpr ⟨idxOf_mem hidx, ?_⟩
    rw [haddr, htag]
    rfl
  · intro htag
    apply mem_joinSp_isInfix
    refine List.mem_map.mpr ⟨c, ?_, hcell⟩
    unfold agentAddrCols
    refine List.mem_filter.mpr ⟨idxOf_mem hidx, ?_⟩
    rw [haddr, htag]
    rfl

/-- Claim C9, witness: a filing with a NaN `mailing_address` cell gets the
token `nan` in its standardized cell and in its business full address. -/
theorem C9_witness :
    idxOf "mailing_address" ["entity_number", "mailing_address"] = some 1 ∧
    ([some "1", none] : List (Option String)).get? 1 = some none ∧
    containsSub "mailing_address" "address" = true ∧
    (getCell ["entity_number", "mailing_address"]
      (([some "1", none] : List (Option String)).map (fun w => some (stdCell w)))
      "mailing_address").getD "" = "nan" :=
  ⟨by decide, rfl, by decide,
    (C9_nan_cells ["entity_number", "mailing_address"] [some "1", none]
      "mailing_address" 1 (by decide) rfl (by decide)).1⟩

theorem pyLower_eq_hash {c : Char} (h : pyLower c = '#') : c = '#' := by
  by_cases hu : 65 ≤ c.toNat ∧ c.toNat ≤ 90
  · exfalso
    have ht := pyLower_toNat_of_upper hu.1 hu.2
    have h2 := congrArg Char.toNat h
    rw [ht] at h2
    have h35 : ('#' : Char).toNat = 35 := by decide
    omega
  · rwa [pyLower_eq_self hu] at h

theorem take_one_head {l : List Char} {c : Char} (h : l.take 1 = [c]) :
    l.head? = some c := by
  cases l with
  | nil => exact absurd h (by simp)
  | cons d ds =>
    have hd : d = c := by simpa using h
    rw [hd]
    rfl

/-- Claim C10: in the residential regex the `#` alternative sits between two
word boundaries, so `#` matches only with word characters adjacent on both
sides.  For every string in which each `#` is preceded or followed by a space
or a string edge and no other pattern token occurs, the search fails; and
when the search fails on both full addresses, `likely_residential_address`
is false. -/
theorem C10_residential_hash_boundary :
    (∀ s : String,
      (∀ i : Nat, s.data.get? i = some '#' →
        i = 0 ∨ s.data.get? (i - 1) = some ' ' ∨ i + 1 = s.data.length ∨
          s.data.get? (i + 1) = some ' ') →
      (∀ t ∈ residentialTokens, t ≠ "#".data → hasSub t (lowerL s.data) = false) →
      residentialSearch s = false) ∧
    (∀ cols row,
      residentialSearch (business_full_address cols row) = false →
      residentialSearch (agent_full_address cols row) = false →
      likelyResidential cols row = false) := by
  constructor
  · intro s hhash htok
    cases hres : residentialSearch s with
    | false => rfl
    | true =>
      exfalso
      unfold residentialSearch at hres
      rcases List.any_eq_true.mp hres with ⟨i, hirange, hinner⟩
      rcases List.any_eq_true.mp hinner with ⟨t, htmem, hmatch⟩
      unfold tokenMatchAt at hmatch
      rw [Bool.and_eq_true, Bool.and_eq_true] at hmatch
      obtain ⟨⟨hslice, hbl⟩, hbr⟩ := hmatch
      by_cases hth : t = "#".data
      · subst hth
        have hdata : ("#".data : List Char) = ['#'] := rfl
        have hlen1 : ("#".data : List Char).length = 1 := rfl
        rw [hlen1] at hslice hbr
        have hsl : lowerL ((s.data.drop i).take 1) = ['#'] := by
          have he := eq_of_beq hslice
          rw [hdata] at he
          exact he
        have hget : s.data.get? i = some '#' := by
          cases htk : (s.data.drop i).take 1 with
          | nil =>
            rw [htk] at hsl
            exact absurd hsl (by simp [lowerL])
          | cons c0 rest0 =>
            have hrest : rest0 = [] := by
              have hlt := congrArg List.length htk
              simp only [List.length_take, List.length_cons] at hlt
              have := Nat.min_le_left 1 (s.data.drop i).length
              cases rest0 with
              | nil => rfl
              | cons _ _ => simp at hlt; omega
            subst hrest
            rw [htk] at hsl
            have hc0 : pyLower c0 = '#' := by
              simpa [lowerL] using hsl
            have hc0h : c0 = '#' := pyLower_eq_hash hc0
            have hh := take_one_head htk
            rw [List.head?_drop, ← List.get?_eq_getElem?] at hh
            rw [hh, hc0h]
        have hwi : wordAt s.data i = false := by
          unfold wordAt
          rw [hget]
          rfl
        unfold boundaryAt at hbl hbr
        rw [hwi] at hbl
        have hiz : ¬ i = 0 := by
          intro hz
          rw [if_pos hz] at hbl
          exact absurd hbl (by decide)
        rw [if_neg hiz] at hbl
        have hprev : wordAt s.data (i - 1) = true := by
          cases hw : wordAt s.data (i - 1)
          · rw [hw] at hbl
            exact absurd hbl (by decide)
          · rfl
        have hiz1 : ¬ i + 1 = 0 := by omega
        rw [if_neg hiz1] at hbr
        have hi1 : i + 1 - 1 = i := by omega
        rw [hi1, hwi] at hbr
        have hnext : wordAt s.data (i + 1) = true := by
          cases hw : wordAt s.data (i + 1)
          · rw [hw] at hbr
            exact absurd hbr (by decide)
          · rfl
        rcases hhash i hget with hz | hsp | hend | hsp2
        · exact hiz hz
        · unfold wordAt at hprev
          rw [hsp] at hprev
          exact absurd hprev (by decide)
        · unfold wordAt at hnext
          have hnone : s.data.get? (i + 1) = none := by
            rw [List.get?_eq_none]
            omega
          rw [hnone] at hnext
          exact absurd hnext (by simp)
        · unfold wordAt at hnext
          rw [hsp2] at hnext
          exact absurd hnext (by decide)
      · have hfalse := htok t htmem hth
        have htrue : hasSub t (lowerL s.data) = true := by
          unfold hasSub
          rw [List.any_eq_true]
          refine ⟨i, ?_, ?_⟩
          · rw [List.mem_range] at hirange ⊢
            unfold lowerL
            rw [List.length_map]
            exact hirange
          · have hcomm : ((lowerL s.data).drop i).take t.length =
                lowerL ((s.data.drop i).take t.length) := by
              unfold lowerL
              rw [← List.map_drop, ← List.map_take]
            rw [hcomm]
            exact hslice
        rw [hfalse] at htrue
        exact absurd htrue (by simp)
  · intro cols row hb ha
    unfold likelyResidential
    rw [hb, ha]
    rfl

/-- Claim C10, witness: on `"123 Main St #4"` (hash preceded by a space, no
other token) and an empty agent address, the flag is false. -/
theorem C10_witness :
    (∀ i : Nat, ("123 Main St #4".data : List Char).get? i = some '#' →
      i = 0 ∨ ("123 Main St #4".data : List Char).get? (i - 1) = some ' ' ∨
        i + 1 = ("123 Main St #4".data : List Char).length ∨
        ("123 Main St #4".data : List Char).get? (i + 1) = some ' ') ∧
    (∀ t ∈ residentialTokens, t ≠ "#".data →
      hasSub t (lowerL "123 Main St #4".data) = false) ∧
    residentialSearch "123 Main St #4" = false := by
  have h1 : ∀ i : Nat, ("123 Main St #4".data : List Char).get? i = some '#' →
      i = 0 ∨ ("123 Main St #4".data : List Char).get? (i - 1) = some ' ' ∨
        i + 1 = ("123 Main St #4".data : List Char).length ∨
        ("123 Main St #4".data : List Char).get? (i + 1) = some ' ' := by
    intro i hi
    have hlt : i < ("123 Main St #4".data : List Char).length := by
      by_contra hge
      rw [List.get?_eq_none.mpr (by omega)] at hi
      exact absurd hi (by simp)
    have hlen : ("123 Main St #4".data : List Char).length = 14 := rfl
    rw [hlen] at hlt
    interval_cases i <;> revert hi <;> decide
  have h2 : ∀ t ∈ residentialTokens, t ≠ "#".data →
      hasSub t (lowerL "123 Main St #4".data) = false := by
    intro t ht hne
    fin_cases ht <;> first | (exact absurd rfl hne) | decide
  exact ⟨h1, h2, C10_residential_hash_boundary.1 "123 Main St #4" h1 h2⟩

/-- Claim C1: the tier classification is a total deterministic function of the
two boolean address flags, the email flag having no effect: (T,T) gives A,
(T,F) and (F,T) give B, (F,F) gives C; and the row-level `lead_tier` is
exactly `classify` of the row's flags. -/
theorem C1_classify_truth_table :
    (∀ e, classify ⟨true, true, e⟩ = "A") ∧
    (∀ e, classify ⟨true, false, e⟩ = "B") ∧
    (∀ e, classify ⟨false, true, e⟩ = "B") ∧
    (∀ e, classify ⟨false, false, e⟩ = "C") ∧
    (∀ a r e e', classify ⟨a, r, e⟩ = classify ⟨a, r, e'⟩) ∧
    (∀ cols row, leadTier cols row = classify (rowFlags cols row)) := by
  refine ⟨fun _ => rfl, fun _ => rfl, fun _ => rfl, fun _ => rfl, ?_, fun _ _ => rfl⟩
  intro a r e e'
  cases a <;> cases r <;> rfl

/-- Claim C3, counterexample: `normalize_addr` is not idempotent.  On the
string `","` it yields `" "`, and normalizing again yields `""`. -/
theorem C3_counterexample :
    normalize_addr (normalize_addr ",") ≠ normalize_addr "," ∧
    normalize_addr "," = " " ∧ normalize_addr " " = "" := by
  decide

/-- Claim C3, amended: `normalize_addr` is idempotent from the second
application onward: a twice-normalized string is a fixed point. -/
theorem C3_normalize_addr_idempotent_from_second (s : String) :
    normalize_addr (normalize_addr (normalize_addr s)) =
    normalize_addr (normalize_addr s) :=
  congrArg String.mk (normalizeL_twice_fix s.data)

/-- Claim C4, counterexample: column standardization does not always produce
pairwise-distinct names.  On `["a", "a", "a_1"]` the duplicate `"a"` is
renamed to `"a_1"`, which collides with the pre-existing `"a_1"`. -/
theorem C4_counterexample :
    standardizeColumns ["a", "a", "a_1"] = ["a", "a_1", "a_1"] ∧
    ¬ (standardizeColumns ["a", "a", "a_1"]).Nodup := by
  decide

/-- Claim C4, amended: column standardization produces pairwise-distinct
names (later duplicates suffixed `_1`, `_2`, … in order of appearance)
provided no cleaned input name equals another cleaned input name with a
positive decimal suffix appended. -/
theorem C4_standardize_columns_nodup (cols : List String)
    (H : ∀ c ∈ cols, ∀ c' ∈ cols, ∀ k, 1 ≤ k →
      cleanName c ≠ suffixName (cleanName c') k) :
    (standardizeColumns cols).Nodup := by
  have HS : ∀ x ∈ cols.map cleanName, ∀ x' ∈ cols.map cleanName,
      ∀ k, 1 ≤ k → x ≠ suffixName x' k := by
    intro x hx x' hx' k hk
    rcases List.mem_map.mp hx with ⟨c, hc, he⟩
    rcases List.mem_map.mp hx' with ⟨c', hc', he'⟩
    rw [← he, ← he']
    exact H c hc c' hc' k hk
  exact (stdColsAux_spec (cols.map cleanName) HS cols []
    (fun col hc => List.mem_map_of_mem cleanName hc) (by simp) (by simp)).1

/-- Claim C4, witness: on `["Entity Number", "Entity-Number"]` (duplicates
after cleaning) the side condition holds and the output names are distinct. -/
theorem C4_witness :
    (∀ c ∈ ["Entity Number", "Entity-Number"],
      ∀ c' ∈ ["Entity Number", "Entity-Number"], ∀ k, 1 ≤ k →
      cleanName c ≠ suffixName (cleanName c') k) ∧
    (standardizeColumns ["Entity Number", "Entity-Number"]).Nodup := by
  have hH : ∀ c ∈ ["Entity Number", "Entity-Number"],
      ∀ c' ∈ ["Entity Number", "Entity-Number"], ∀ k, 1 ≤ k →
      cleanName c ≠ suffixName (cleanName c') k := by
    intro c hc c' hc' k hk
    apply cleanName_ne_suffix_of_le
    fin_cases hc <;> fin_cases hc' <;> decide
  exact ⟨hH, C4_standardize_columns_nodup _ hH⟩

end SOS
